import Mathlib

/-!
Verification of the COO sparse matrix-matrix multiply kernel
(`cusp::detail::generic::multiply` for `coo_matrix`, file
`cusp/detail/generic/detail/multiply.inl`).

The C++ kernel is embedded shallowly: `cusp::array1d` buffers become
`List Nat` / `List Int`, the thrust primitives (`gather`, `scatter_if`,
`exclusive_scan`, `inclusive_scan` with `maximum`, experimental
`inclusive_segmented_scan`, `sort_by_key`, `unique_by_key` with a binary
reduction) become the executable list functions below, and the templated
`IndexType` / `ValueType` are instantiated at `Nat` / `Int` (an exact value
type).  Out-of-bounds element reads, which are undefined behaviour in the
C++ source, are totalized with `List.getD` (default value 0).
-/

/-- Coordinate-format sparse matrix, mirroring `cusp::coo_matrix`:
dimensions plus three parallel index/value sequences. -/
structure CooMatrix where
  num_rows : Nat
  num_cols : Nat
  row_indices : List Nat
  column_indices : List Nat
  values : List Int
  deriving Repr, DecidableEq

namespace CooMatrix

/-- `num_entries` of a `cusp::coo_matrix`: the common length of the three
entry sequences (the container keeps them equal-sized by construction). -/
def num_entries (m : CooMatrix) : Nat := m.row_indices.length

/-- The entry stream of a COO matrix as a list of (row, column, value)
triplets. -/
def triples (m : CooMatrix) : List (Nat × Nat × Int) :=
  m.row_indices.zip (m.column_indices.zip m.values)

/-- Container well-formedness: the three entry sequences have equal length
(maintained by `cusp::coo_matrix` construction and `resize`). -/
def wf (m : CooMatrix) : Prop :=
  m.column_indices.length = m.row_indices.length ∧
    m.values.length = m.row_indices.length

instance (m : CooMatrix) : Decidable m.wf := by
  unfold wf; infer_instance

/-- The (i,j) coefficient a COO stream denotes: the sum of the values of
all entries at coordinate (i,j) (duplicates accumulate). -/
def entry (m : CooMatrix) (i j : Nat) : Int :=
  ((m.triples.filter (fun t => t.1 == i && t.2.1 == j)).map (fun t => t.2.2)).sum

end CooMatrix

/-! ## Embeddings of the thrust primitives used by the kernel -/

/-- `thrust::exclusive_scan` with initial value `a`: output has the length
of the input, `out[n] = a + in[0] + ... + in[n-1]`. -/
def exclusiveScan : List Nat → Nat → List Nat
  | [], _ => []
  | x :: xs, a => a :: exclusiveScan xs (a + x)

/-- `thrust::scatter_if ins map stencil out`: for each n, if `stencil[n]`
is nonzero then `out[map[n]] = ins[n]`.  Iteration order follows n, as in
the sequential reference semantics of thrust. -/
def scatterIf : List Nat → List Nat → List Nat → List Nat → List Nat
  | n :: ns, p :: ps, s :: ss, out =>
      scatterIf ns ps ss (if s ≠ 0 then out.set p n else out)
  | _, _, _, out => out

/-- Running-maximum accumulation: `scanMaxAux c l` maps each position of
`l` to the maximum of `c` and all input elements up to that position. -/
def scanMaxAux : Nat → List Nat → List Nat
  | _, [] => []
  | c, x :: xs => max c x :: scanMaxAux (max c x) xs

/-- `thrust::inclusive_scan` with `thrust::maximum`: `out[p]` is the
maximum of `in[0..p]`.  Seeding the accumulator with 0 is exact for `Nat`
because 0 is the identity of `max`. -/
def inclusiveScanMax (l : List Nat) : List Nat := scanMaxAux 0 l

/-- Accumulation step of the segmented scan: a position whose key equals
the previous key continues the running sum, otherwise it restarts. -/
def segScanAux : Nat → Nat → List Nat → List Nat → List Nat
  | _, _, [], _ => []
  | _, _, _ :: _, [] => []
  | acc, pk, v :: vs, k :: ks =>
      (if k = pk then acc + v else v) ::
        segScanAux (if k = pk then acc + v else v) k vs ks

/-- `thrust::experimental::inclusive_segmented_scan` with `plus` and key
equality: an inclusive running sum that restarts whenever the key differs
from the key of the preceding position. -/
def inclusiveSegScan (vals keys : List Nat) : List Nat :=
  match vals, keys with
  | v :: vs, k :: ks => v :: segScanAux v k vs ks
  | _, _ => []

/-- Stable insert for the column-key sort pass: the inserted element goes
after every element with a strictly smaller column key and before the
rest. -/
def insertByCol (x : Nat × Nat × Int) : List (Nat × Nat × Int) → List (Nat × Nat × Int)
  | [] => [x]
  | y :: ys => if y.2.1 < x.2.1 then y :: insertByCol x ys else x :: y :: ys

/-- `thrust::sort_by_key` on the column keys `J` carrying `(I,V)`, modelled
as a stable sort (thrust's radix sort on integer keys is stable). -/
def sortByJ : List (Nat × Nat × Int) → List (Nat × Nat × Int) :=
  List.foldr insertByCol []

/-- Stable insert for the row-key sort pass. -/
def insertByRow (x : Nat × Nat × Int) : List (Nat × Nat × Int) → List (Nat × Nat × Int)
  | [] => [x]
  | y :: ys => if y.1 < x.1 then y :: insertByRow x ys else x :: y :: ys

/-- `thrust::sort_by_key` on the row keys `I` carrying `(J,V)`, modelled as
a stable sort. -/
def sortByI : List (Nat × Nat × Int) → List (Nat × Nat × Int) :=
  List.foldr insertByRow []

/-- Accumulation step of `unique_by_key` with `equal_to` on (row, column)
and `plus` on values: adjacent triplets with equal key merge by adding
their values. -/
def ubkAux : Nat × Nat × Int → List (Nat × Nat × Int) → List (Nat × Nat × Int)
  | cur, [] => [cur]
  | cur, t :: ts =>
      if cur.1 == t.1 && cur.2.1 == t.2.1 then
        ubkAux (cur.1, cur.2.1, cur.2.2 + t.2.2) ts
      else
        cur :: ubkAux t ts

/-- `thrust::unique_by_key` over zipped (I,J) keys with `equal_to` and
`plus<ValueType>`: collapses each run of consecutive equal (row, column)
keys into one triplet whose value is the run's sum. -/
def uniqueByKeyPlus : List (Nat × Nat × Int) → List (Nat × Nat × Int)
  | [] => []
  | t :: ts => ubkAux t ts

/-! ## The kernel pipeline, stage by stage -/

/-- Modelled from the spec: `cusp::detail::indices_to_offsets`
(declared in `cusp/detail/format_utils.h`, whose implementation is not part
of the sources under verification).  Contract of section 4.1: given the
row-index sequence, produce `offsets` of length `num_rows + 1` with
`offsets[0] = 0`, `offsets[num_rows] = num_entries` (for in-bound sorted
input) and `offsets[r+1] - offsets[r]` the number of indices equal to `r`;
`offsets[r]` is the count of indices smaller than `r`. -/
def indicesToOffsets (idx : List Nat) (numRows : Nat) : List Nat :=
  (List.range (numRows + 1)).map (fun r => idx.countP (fun x => decide (x < r)))

/-- `B_row_offsets`: row start offsets of the right operand. -/
def B_row_offsets (B : CooMatrix) : List Nat :=
  indicesToOffsets B.row_indices B.num_rows

/-- `B_row_lengths`: `thrust::transform` of adjacent offset differences,
`B_row_lengths[r] = B_row_offsets[r+1] - B_row_offsets[r]`. -/
def B_row_lengths (B : CooMatrix) : List Nat :=
  List.zipWith (fun a b => a - b) ((B_row_offsets B).drop 1) (B_row_offsets B)

/-- `segment_lengths`: `thrust::gather` via `A.column_indices`, so
`segment_lengths[n] = B_row_lengths[A.column_indices[n]]`. -/
def segment_lengths (A B : CooMatrix) : List Nat :=
  A.column_indices.map (fun j => (B_row_lengths B).getD j 0)

/-- The `output_ptr` buffer right after the exclusive scan: the scan fills
the first `A.num_entries` slots and the final slot still holds the zero it
was value-initialized with. -/
def output_ptr_scan (A B : CooMatrix) : List Nat :=
  exclusiveScan (segment_lengths A B) 0 ++ [0]

/-- `output_ptr` after the explicit trailing write
`output_ptr[A.num_entries] = output_ptr[A.num_entries-1] +
segment_lengths[A.num_entries-1]`. -/
def output_ptr (A B : CooMatrix) : List Nat :=
  (output_ptr_scan A B).set A.num_entries
    ((output_ptr_scan A B).getD (A.num_entries - 1) 0 +
      (segment_lengths A B).getD (A.num_entries - 1) 0)

/-- `coo_num_nonzeros`: the total intermediate triplet count T, read from
the last slot of `output_ptr`. -/
def coo_num_nonzeros (A B : CooMatrix) : Nat :=
  (output_ptr A B).getD A.num_entries 0

/-- `segments`: scatter each entry index n to position `output_ptr[n]` of a
zero-filled buffer of size T (only where the segment is nonempty), then an
inclusive maximum scan fills every position of a segment with its owning
A-entry index. -/
def segments (A B : CooMatrix) : List Nat :=
  inclusiveScanMax
    (scatterIf (List.range' 0 A.num_entries) (output_ptr A B)
      (segment_lengths A B)
      (List.replicate (coo_num_nonzeros A B) 0))

/-- The temporary of the gather-location stage:
`temp[n] = B_row_offsets[A.column_indices[n]]`. -/
def gather_temp (A B : CooMatrix) : List Nat :=
  A.column_indices.map (fun j => (B_row_offsets B).getD j 0)

/-- `gather_locations`: ones-filled buffer of size T, scatter of
`B_row_offsets[A.column_indices[n]]` at position `output_ptr[n]` (only for
nonempty segments), then an inclusive segmented plus-scan keyed by
`segments`. -/
def gather_locations (A B : CooMatrix) : List Nat :=
  inclusiveSegScan
    (scatterIf (gather_temp A B) (output_ptr A B) (segment_lengths A B)
      (List.replicate (coo_num_nonzeros A B) 1))
    (segments A B)

/-- Intermediate row indices `I`: gather of `A.row_indices` through
`segments`. -/
def interI (A B : CooMatrix) : List Nat :=
  (segments A B).map (fun n => A.row_indices.getD n 0)

/-- Intermediate column indices `J`: gather of `B.column_indices` through
`gather_locations`. -/
def interJ (A B : CooMatrix) : List Nat :=
  (gather_locations A B).map (fun g => B.column_indices.getD g 0)

/-- Intermediate values `V`: elementwise product of the gathered
`A.values[segments[p]]` and `B.values[gather_locations[p]]`. -/
def interV (A B : CooMatrix) : List Int :=
  List.zipWith (· * ·)
    ((segments A B).map (fun n => A.values.getD n 0))
    ((gather_locations A B).map (fun g => B.values.getD g 0))

/-- The intermediate triplet stream, i.e. the zipped (I, J, V) arrays the
sort and reduction stages operate on. -/
def intermediate (A B : CooMatrix) : List (Nat × Nat × Int) :=
  (interI A B).zip ((interJ A B).zip (interV A B))

/-- The whole kernel with the caller-supplied destination `C` threaded
through, mirroring the C++ signature `multiply(A, B, C)`.  In the empty
fast path `C.swap(temp)` replaces `C` wholesale by a freshly constructed
`(A.num_rows, B.num_cols, 0)` matrix; in the general path
`C.resize(A.num_rows, B.num_cols, NNZ)` followed by the three sequence
assignments overwrites every field of `C`. -/
def multiplyInto (A B C : CooMatrix) : CooMatrix :=
  if A.num_entries = 0 ∨ B.num_entries = 0 then
    { num_rows := A.num_rows, num_cols := B.num_cols,
      row_indices := [], column_indices := [], values := [] }
  else
    let reduced := uniqueByKeyPlus (sortByI (sortByJ (intermediate A B)))
    { C with
      num_rows := A.num_rows, num_cols := B.num_cols,
      row_indices := reduced.map (fun t => t.1),
      column_indices := reduced.map (fun t => t.2.1),
      values := reduced.map (fun t => t.2.2) }

/-- The product matrix as a function of the operands alone. -/
def multiply (A B : CooMatrix) : CooMatrix :=
  multiplyInto A B
    { num_rows := 0, num_cols := 0, row_indices := [], column_indices := [],
      values := [] }

/-! ## Basic facts about the scan and scatter embeddings -/

theorem exclusiveScan_length (l : List Nat) (a : Nat) :
    (exclusiveScan l a).length = l.length := by
  induction l generalizing a with
  | nil => rfl
  | cons x xs ih => simp [exclusiveScan, ih]

theorem exclusiveScan_getD (l : List Nat) (a n : Nat) (h : n < l.length) :
    (exclusiveScan l a).getD n 0 = a + (l.take n).sum := by
  induction l generalizing a n with
  | nil => simp at h
  | cons x xs ih =>
    cases n with
    | zero => simp [exclusiveScan]
    | succ n =>
      have h' : n < xs.length := by simpa using h
      simp only [exclusiveScan, List.getD_cons_succ, List.take_succ_cons,
        List.sum_cons]
      rw [ih _ _ h']
      omega

theorem set_append_len {α : Type} (xs ys : List α) (v : α) :
    (xs ++ ys).set xs.length v = xs ++ ys.set 0 v := by
  induction xs with
  | nil => rfl
  | cons x xs ih => simp [List.set, ih]

theorem scatterIf_out_nil (ns ps ss : List Nat) : scatterIf ns ps ss [] = [] := by
  induction ns generalizing ps ss with
  | nil => rfl
  | cons n ns ih =>
    cases ps with
    | nil => rfl
    | cons p ps =>
      cases ss with
      | nil => rfl
      | cons s ss =>
        show scatterIf ns ps ss (if s ≠ 0 then List.set [] p n else []) = []
        rw [List.set_nil, ite_self, ih]

/-- The trailing write turns `output_ptr` into the exclusive scan extended
with the total of all segment lengths. -/
theorem output_ptr_eq (A B : CooMatrix) (hwf : A.wf)
    (hne : A.num_entries ≠ 0) :
    output_ptr A B =
      exclusiveScan (segment_lengths A B) 0 ++ [(segment_lengths A B).sum] := by
  have hlen : (segment_lengths A B).length = A.num_entries := by
    simp [segment_lengths, CooMatrix.num_entries, hwf.1]
  have hpos : 0 < (segment_lengths A B).length := by omega
  have hscan : (exclusiveScan (segment_lengths A B) 0).length =
      (segment_lengths A B).length := exclusiveScan_length _ _
  have hset : (output_ptr_scan A B).set A.num_entries
      ((output_ptr_scan A B).getD (A.num_entries - 1) 0 +
        (segment_lengths A B).getD (A.num_entries - 1) 0) =
      exclusiveScan (segment_lengths A B) 0 ++
        [(output_ptr_scan A B).getD (A.num_entries - 1) 0 +
          (segment_lengths A B).getD (A.num_entries - 1) 0] := by
    unfold output_ptr_scan
    rw [show A.num_entries = (exclusiveScan (segment_lengths A B) 0).length by
      omega]
    rw [set_append_len]
    rfl
  have hprev : (output_ptr_scan A B).getD (A.num_entries - 1) 0 =
      ((segment_lengths A B).take (A.num_entries - 1)).sum := by
    unfold output_ptr_scan
    rw [List.getD_append _ _ _ _ (by omega)]
    rw [exclusiveScan_getD _ _ _ (by omega)]
    omega
  have hlast : ((segment_lengths A B).take (A.num_entries - 1)).sum +
      (segment_lengths A B).getD (A.num_entries - 1) 0 =
      (segment_lengths A B).sum := by
    have hidx : A.num_entries - 1 < (segment_lengths A B).length := by omega
    rw [List.getD_eq_getElem _ _ hidx]
    have := List.sum_take_succ (segment_lengths A B) (A.num_entries - 1) hidx
    rw [← this]
    rw [show A.num_entries - 1 + 1 = (segment_lengths A B).length by omega]
    rw [List.take_length]
  unfold output_ptr
  rw [hset, hprev, hlast]

/-- Under the general branch the intermediate total T is the sum of the
segment lengths. -/
theorem coo_num_nonzeros_eq (A B : CooMatrix) (hwf : A.wf)
    (hne : A.num_entries ≠ 0) :
    coo_num_nonzeros A B = (segment_lengths A B).sum := by
  unfold coo_num_nonzeros
  rw [output_ptr_eq A B hwf hne]
  have hscan : (exclusiveScan (segment_lengths A B) 0).length = A.num_entries := by
    rw [exclusiveScan_length]
    simp [segment_lengths, CooMatrix.num_entries, hwf.1]
  rw [List.getD_append_right _ _ _ _ (by omega)]
  rw [hscan]
  simp

/-- Prefix-sum description of every slot of `output_ptr`. -/
theorem output_ptr_getD (A B : CooMatrix) (hwf : A.wf) (n : Nat)
    (hn : n ≤ A.num_entries) :
    (output_ptr A B).getD n 0 = ((segment_lengths A B).take n).sum := by
  have hlen : (segment_lengths A B).length = A.num_entries := by
    simp [segment_lengths, CooMatrix.num_entries, hwf.1]
  by_cases hne : A.num_entries = 0
  · have hsl : segment_lengths A B = [] := by
      cases h : segment_lengths A B with
      | nil => rfl
      | cons a l => rw [h] at hlen; simp [hne] at hlen
    have hn0 : n = 0 := by omega
    subst hn0
    unfold output_ptr output_ptr_scan
    rw [hsl, hne]
    rfl
  · rw [output_ptr_eq A B hwf hne]
    have hscan : (exclusiveScan (segment_lengths A B) 0).length = A.num_entries := by
      rw [exclusiveScan_length]; omega
    rcases Nat.lt_or_ge n A.num_entries with hlt | hge
    · rw [List.getD_append _ _ _ _ (by omega)]
      rw [exclusiveScan_getD _ _ _ (by omega)]
      omega
    · have hn' : n = A.num_entries := by omega
      subst hn'
      rw [List.getD_append_right _ _ _ _ (by omega)]
      rw [hscan, Nat.sub_self]
      rw [show (segment_lengths A B).take A.num_entries = segment_lengths A B by
        rw [← hlen, List.take_length]]
      rfl

/-! ## Concrete example matrices (spec section 8) -/

/-- A = [[1,0],[0,2]] as COO, the concrete scenario of the spec. -/
def Aex : CooMatrix := ⟨2, 2, [0, 1], [0, 1], [1, 2]⟩

/-- B = [[0,3],[4,0]] as COO, the concrete scenario of the spec. -/
def Bex : CooMatrix := ⟨2, 2, [0, 1], [1, 0], [3, 4]⟩

/-- An empty left operand of shape 3 x 2. -/
def AexEmpty : CooMatrix := ⟨3, 2, [], [], []⟩

/-- Nonempty 1 x 2 operand whose single entry points at an empty row of
`BexEmptyRow`. -/
def AexT0 : CooMatrix := ⟨1, 2, [0], [1], [5]⟩

/-- Nonempty 2 x 1 operand whose row 1 is empty. -/
def BexEmptyRow : CooMatrix := ⟨2, 1, [0], [0], [7]⟩

/-! ## Claims C4, C5, C6 -/

/-- C4: the destination matrix is fully replaced by a result computed from
the operands alone; its prior contents never leak into the output.  Both
mutation points of the source (the `C.swap(temp)` of the empty fast path
and the `C.resize` plus sequence assignments of the result assembly)
overwrite every field of `C`, so `multiplyInto` is constant in its third
argument and agrees with the destination-free product. -/
theorem destination_replaced_not_merged (A B C C' : CooMatrix) :
    multiplyInto A B C = multiplyInto A B C' ∧
      multiplyInto A B C = multiply A B := by
  constructor
  · unfold multiplyInto
    split
    · rfl
    · cases C; cases C'; rfl
  · unfold multiply multiplyInto
    split
    · rfl
    · cases C; rfl

/-- C5: when either operand has no entries, the kernel takes the fast path
and the destination becomes the zero-entry matrix of shape
`(A.num_rows, B.num_cols)`. -/
theorem empty_operand_fast_path (A B : CooMatrix)
    (h : A.num_entries = 0 ∨ B.num_entries = 0) :
    multiply A B =
      { num_rows := A.num_rows, num_cols := B.num_cols,
        row_indices := [], column_indices := [], values := [] } ∧
      (multiply A B).num_entries = 0 := by
  unfold multiply multiplyInto
  rw [if_pos h]
  exact ⟨rfl, rfl⟩

theorem empty_operand_fast_path_witness :
    (AexEmpty.num_entries = 0 ∨ Bex.num_entries = 0) ∧
      (multiply AexEmpty Bex =
        { num_rows := AexEmpty.num_rows, num_cols := Bex.num_cols,
          row_indices := [], column_indices := [], values := [] } ∧
        (multiply AexEmpty Bex).num_entries = 0) :=
  ⟨Or.inl rfl, empty_operand_fast_path AexEmpty Bex (Or.inl rfl)⟩

/-- C6: on both the fast path and the general path the result has
`A.num_rows` rows and `B.num_cols` columns. -/
theorem result_dimensions (A B : CooMatrix) (hdim : A.num_cols = B.num_rows) :
    (multiply A B).num_rows = A.num_rows ∧
      (multiply A B).num_cols = B.num_cols := by
  unfold multiply multiplyInto
  split
  · exact ⟨rfl, rfl⟩
  · exact ⟨rfl, rfl⟩

theorem result_dimensions_witness :
    Aex.num_cols = Bex.num_rows ∧
      ((multiply Aex Bex).num_rows = Aex.num_rows ∧
        (multiply Aex Bex).num_cols = Bex.num_cols) :=
  ⟨rfl, result_dimensions Aex Bex rfl⟩

/-! ## Claim C7: zero intermediate count with nonempty operands -/

/-- When the intermediate total T is zero, every transient buffer of the
expansion collapses to the empty list. -/
theorem intermediate_eq_nil_of_T_zero (A B : CooMatrix)
    (hT : coo_num_nonzeros A B = 0) : intermediate A B = [] := by
  have hseg : segments A B = [] := by
    unfold segments
    rw [hT]
    rw [show (List.replicate 0 0 : List Nat) = [] from rfl]
    rw [scatterIf_out_nil]
    rfl
  have hgl : gather_locations A B = [] := by
    unfold gather_locations
    rw [hT, hseg]
    rw [show (List.replicate 0 1 : List Nat) = [] from rfl]
    rw [scatterIf_out_nil]
    rfl
  unfold intermediate interI interJ interV
  rw [hseg, hgl]
  rfl

/-- C7: nonempty operands whose expansion is empty (T = 0) still produce a
well-shaped zero-entry result rather than an error. -/
theorem zero_intermediate_success (A B : CooMatrix)
    (hA : A.num_entries ≠ 0) (hB : B.num_entries ≠ 0)
    (hT : coo_num_nonzeros A B = 0) :
    (multiply A B).num_entries = 0 ∧
      (multiply A B).num_rows = A.num_rows ∧
      (multiply A B).num_cols = B.num_cols := by
  unfold multiply multiplyInto
  rw [if_neg (by push_neg; exact ⟨hA, hB⟩)]
  rw [intermediate_eq_nil_of_T_zero A B hT]
  exact ⟨rfl, rfl, rfl⟩

theorem zero_intermediate_success_witness :
    (AexT0.num_entries ≠ 0 ∧ BexEmptyRow.num_entries ≠ 0 ∧
      coo_num_nonzeros AexT0 BexEmptyRow = 0) ∧
      ((multiply AexT0 BexEmptyRow).num_entries = 0 ∧
        (multiply AexT0 BexEmptyRow).num_rows = AexT0.num_rows ∧
        (multiply AexT0 BexEmptyRow).num_cols = BexEmptyRow.num_cols) :=
  ⟨⟨by decide, by decide, by decide⟩,
    zero_intermediate_success AexT0 BexEmptyRow (by decide) (by decide)
      (by decide)⟩

/-! ## Claim C8: the output layout is the exclusive prefix sum plus total -/

/-- C8: after the layout stage, `output_ptr[n]` is the exclusive prefix sum
of `segment_lengths` for `n < A.num_entries`, and the slot written by the
explicit trailing write, `output_ptr[A.num_entries]`, holds the total
intermediate count T; `coo_num_nonzeros` reads exactly that total. -/
theorem output_ptr_prefix_sum (A B : CooMatrix) (hwf : A.wf) :
    (∀ n, n < A.num_entries →
        (output_ptr A B).getD n 0 = ((segment_lengths A B).take n).sum) ∧
      (output_ptr A B).getD A.num_entries 0 = (segment_lengths A B).sum ∧
      coo_num_nonzeros A B = (segment_lengths A B).sum := by
  have hlen : (segment_lengths A B).length = A.num_entries := by
    simp [segment_lengths, CooMatrix.num_entries, hwf.1]
  refine ⟨fun n hn => output_ptr_getD A B hwf n (by omega), ?_, ?_⟩
  · rw [output_ptr_getD A B hwf A.num_entries (by omega)]
    rw [← hlen, List.take_length]
  · unfold coo_num_nonzeros
    rw [output_ptr_getD A B hwf A.num_entries (by omega)]
    rw [← hlen, List.take_length]

theorem output_ptr_prefix_sum_witness :
    Aex.wf ∧
      (output_ptr Aex Bex).getD 1 0 = ((segment_lengths Aex Bex).take 1).sum ∧
      (output_ptr Aex Bex).getD Aex.num_entries 0 =
        (segment_lengths Aex Bex).sum :=
  ⟨⟨rfl, rfl⟩, (output_ptr_prefix_sum Aex Bex ⟨rfl, rfl⟩).1 1 (by decide),
    (output_ptr_prefix_sum Aex Bex ⟨rfl, rfl⟩).2.1⟩

/-! ## Claim C10: the trailing-write accesses are in bounds -/

/-- C10: once the empty-operand check has returned, `A.num_entries ≥ 1`,
so the reads `output_ptr[A.num_entries - 1]` (from the scan-filled buffer
of length `A.num_entries + 1`) and `segment_lengths[A.num_entries - 1]`
(length `A.num_entries`) performed by the trailing write are in bounds:
with `Option`-returning indexing both lookups return `some`. -/
theorem trailing_write_in_bounds (A B : CooMatrix) (hwf : A.wf)
    (hgen : ¬(A.num_entries = 0 ∨ B.num_entries = 0)) :
    1 ≤ A.num_entries ∧
      (output_ptr_scan A B).length = A.num_entries + 1 ∧
      (segment_lengths A B).length = A.num_entries ∧
      (output_ptr_scan A B)[A.num_entries - 1]?.isSome ∧
      (segment_lengths A B)[A.num_entries - 1]?.isSome := by
  push_neg at hgen
  have hlen : (segment_lengths A B).length = A.num_entries := by
    simp [segment_lengths, CooMatrix.num_entries, hwf.1]
  have hne : 1 ≤ A.num_entries := by
    rcases Nat.eq_zero_or_pos A.num_entries with h | h
    · exact absurd h hgen.1
    · omega
  have hlen2 : (output_ptr_scan A B).length = A.num_entries + 1 := by
    unfold output_ptr_scan
    rw [List.length_append, exclusiveScan_length, hlen]
    rfl
  refine ⟨hne, hlen2, hlen, ?_, ?_⟩
  · rw [List.getElem?_eq_getElem (by omega)]; rfl
  · rw [List.getElem?_eq_getElem (by omega)]; rfl

theorem trailing_write_in_bounds_witness :
    (Aex.wf ∧ ¬(Aex.num_entries = 0 ∨ Bex.num_entries = 0)) ∧
      (1 ≤ Aex.num_entries ∧
        (output_ptr_scan Aex Bex).length = Aex.num_entries + 1 ∧
        (segment_lengths Aex Bex).length = Aex.num_entries ∧
        (output_ptr_scan Aex Bex)[Aex.num_entries - 1]?.isSome ∧
        (segment_lengths Aex Bex)[Aex.num_entries - 1]?.isSome) :=
  ⟨⟨⟨rfl, rfl⟩, by decide⟩,
    trailing_write_in_bounds Aex Bex ⟨rfl, rfl⟩ (by decide)⟩

/-! ## Blockwise characterization of the data-parallel expansion

The expansion buffers are flattenings of per-A-entry blocks: entry n with
segment length `s_n` owns the slice `[output_ptr[n], output_ptr[n+1])`.
`markedP ins sl z` is a scatter result: each nonempty block starts with its
scattered payload and continues with the fill value `z`;  `segSpec b sl` is
the block structure of `segments` (block n constantly n);  `gSpec ts sl` is
the block structure of `gather_locations` (block n counts up from its
scattered row offset). -/

def markedP : List Nat → List Nat → Nat → List Nat
  | t :: ts, s :: ss, z =>
      (if s = 0 then [] else t :: List.replicate (s - 1) z) ++ markedP ts ss z
  | _, _, _ => []

def segSpec : Nat → List Nat → List Nat
  | _, [] => []
  | b, s :: ss => List.replicate s b ++ segSpec (b + 1) ss

def gSpec : List Nat → List Nat → List Nat
  | t :: ts, s :: ss => List.range' t s ++ gSpec ts ss
  | _, _ => []

theorem markedP_length (ins sl : List Nat) (z : Nat)
    (h : ins.length = sl.length) : (markedP ins sl z).length = sl.sum := by
  induction sl generalizing ins with
  | nil =>
    cases ins with
    | nil => rfl
    | cons t ts => simp at h
  | cons s ss ih =>
    cases ins with
    | nil => simp at h
    | cons t ts =>
      have h' : ts.length = ss.length := by simpa using h
      by_cases hs : s = 0
      · simp [markedP, hs, ih ts h']
      · simp only [markedP, if_neg hs, List.length_append, List.length_cons,
          List.length_replicate, List.sum_cons, ih ts h']
        omega

/-- The conditional scatter at the exclusive-scan positions writes each
payload at the head of its block: starting from a constant buffer of the
total length, the result is exactly `markedP`. -/
theorem scatterIf_marked (sl : List Nat) :
    ∀ (ins front extra : List Nat) (z : Nat), ins.length = sl.length →
    scatterIf ins (exclusiveScan sl front.length ++ extra) sl
        (front ++ List.replicate sl.sum z) =
      front ++ markedP ins sl z := by
  induction sl with
  | nil =>
    intro ins front extra z h
    cases ins with
    | nil =>
      show front ++ List.replicate ([] : List Nat).sum z = front ++ markedP [] [] z
      rfl
    | cons t ts => simp at h
  | cons s ss ih =>
    intro ins front extra z h
    cases ins with
    | nil => simp at h
    | cons t ts =>
      have h' : ts.length = ss.length := by simpa using h
      by_cases hs : s = 0
      · subst hs
        show scatterIf ts (exclusiveScan ss (front.length + 0) ++ extra) ss
            (if (0 : Nat) ≠ 0 then _ else front ++ List.replicate (0 + ss.sum) z) =
          front ++ markedP (t :: ts) (0 :: ss) z
        rw [if_neg (by omega)]
        rw [Nat.add_zero, Nat.zero_add]
        rw [ih ts front extra z h']
        simp [markedP]
      · obtain ⟨s', rfl⟩ : ∃ s', s = s' + 1 := ⟨s - 1, by omega⟩
        show scatterIf ts (exclusiveScan ss (front.length + (s' + 1)) ++ extra) ss
            (if (s' + 1 : Nat) ≠ 0 then
              (front ++ List.replicate ((s' + 1) + ss.sum) z).set front.length t
            else _) =
          front ++ markedP (t :: ts) ((s' + 1) :: ss) z
        rw [if_pos (by omega)]
        have hrep : List.replicate ((s' + 1) + ss.sum) z =
            z :: List.replicate (s' + ss.sum) z := by
          rw [show (s' + 1) + ss.sum = (s' + ss.sum) + 1 by omega]
          rfl
        rw [hrep, set_append_len, List.set_cons_zero]
        have hfront : front ++ t :: List.replicate (s' + ss.sum) z =
            (front ++ t :: List.replicate s' z) ++ List.replicate ss.sum z := by
          rw [List.replicate_add, List.append_assoc]
          rfl
        rw [hfront]
        have hflen : (front ++ t :: List.replicate s' z).length =
            front.length + (s' + 1) := by
          simp
        rw [← hflen, ih ts (front ++ t :: List.replicate s' z) extra z h']
        simp [markedP, List.append_assoc]

theorem scanMaxAux_rep_zero (m : Nat) : ∀ (b : Nat) (rest : List Nat),
    scanMaxAux b (List.replicate m 0 ++ rest) =
      List.replicate m b ++ scanMaxAux b rest := by
  induction m with
  | zero => intro b rest; rfl
  | succ m ih =>
    intro b rest
    show max b 0 :: scanMaxAux (max b 0) (List.replicate m 0 ++ rest) = _
    rw [Nat.max_zero, ih]
    rfl

/-- The inclusive maximum scan of the scattered entry indices fills every
block with its owning entry index. -/
theorem scanMax_marked (sl : List Nat) : ∀ (b c : Nat), c ≤ b →
    scanMaxAux c (markedP (List.range' b sl.length) sl 0) = segSpec b sl := by
  induction sl with
  | nil => intro b c _; rfl
  | cons s ss ih =>
    intro b c hc
    rw [List.length_cons, List.range'_succ]
    by_cases hs : s = 0
    · subst hs
      show scanMaxAux c (markedP (List.range' (b + 1) ss.length) ss 0) =
        segSpec (b + 1) ss
      exact ih (b + 1) c (by omega)
    · obtain ⟨s', rfl⟩ : ∃ s', s = s' + 1 := ⟨s - 1, by omega⟩
      show scanMaxAux c
          (b :: (List.replicate s' 0 ++ markedP (List.range' (b + 1) ss.length) ss 0)) =
        List.replicate (s' + 1) b ++ segSpec (b + 1) ss
      show max c b :: scanMaxAux (max c b)
          (List.replicate s' 0 ++ markedP (List.range' (b + 1) ss.length) ss 0) = _
      rw [Nat.max_eq_right hc, scanMaxAux_rep_zero, ih (b + 1) b (by omega)]
      rfl

theorem segScanAux_rep (m : Nat) : ∀ (acc b : Nat) (restV restK : List Nat),
    segScanAux acc b (List.replicate m 1 ++ restV) (List.replicate m b ++ restK) =
      List.range' (acc + 1) m ++ segScanAux (acc + m) b restV restK := by
  induction m with
  | zero => intro acc b restV restK; rfl
  | succ m ih =>
    intro acc b restV restK
    show (if b = b then acc + 1 else 1) ::
        segScanAux (if b = b then acc + 1 else 1) b
          (List.replicate m 1 ++ restV) (List.replicate m b ++ restK) = _
    rw [if_pos rfl, ih]
    rw [List.range'_succ]
    rw [show acc + (m + 1) = acc + 1 + m by omega]
    rfl

/-- The segmented plus-scan of the scattered row offsets over a ones-filled
buffer makes each block count up from its offset. -/
theorem segScanAux_marked (sl : List Nat) : ∀ (ts : List Nat) (b pk acc : Nat),
    ts.length = sl.length → (∀ i, i < sl.length → pk ≠ b + i) →
    segScanAux acc pk (markedP ts sl 1) (segSpec b sl) = gSpec ts sl := by
  induction sl with
  | nil =>
    intro ts b pk acc h _
    cases ts with
    | nil => rfl
    | cons t ts => simp at h
  | cons s ss ih =>
    intro ts b pk acc h hpk
    cases ts with
    | nil => simp at h
    | cons t ts =>
      have h' : ts.length = ss.length := by simpa using h
      by_cases hs : s = 0
      · subst hs
        show segScanAux acc pk ([] ++ markedP ts ss 1)
            (List.replicate 0 b ++ segSpec (b + 1) ss) =
          List.range' t 0 ++ gSpec ts ss
        rw [List.nil_append]
        rw [show (List.replicate 0 b ++ segSpec (b + 1) ss : List Nat) =
          segSpec (b + 1) ss from rfl]
        rw [show (List.range' t 0 ++ gSpec ts ss : List Nat) = gSpec ts ss from rfl]
        exact ih ts (b + 1) pk acc h' (fun i hi => by
          have := hpk (i + 1) (by simpa using Nat.succ_lt_succ hi)
          omega)
      · obtain ⟨s', rfl⟩ : ∃ s', s = s' + 1 := ⟨s - 1, by omega⟩
        have hb : b ≠ pk := by
          have := hpk 0 (by simp)
          omega
        show segScanAux acc pk
            (t :: (List.replicate s' 1 ++ markedP ts ss 1))
            (b :: (List.replicate s' b ++ segSpec (b + 1) ss)) =
          List.range' t (s' + 1) ++ gSpec ts ss
        show (if b = pk then acc + t else t) ::
            segScanAux (if b = pk then acc + t else t) b
              (List.replicate s' 1 ++ markedP ts ss 1)
              (List.replicate s' b ++ segSpec (b + 1) ss) = _
        rw [if_neg hb, segScanAux_rep]
        rw [ih ts (b + 1) b (t + s') h' (fun i hi => by omega)]
        rw [List.range'_succ]
        rfl

theorem inclusiveSegScan_eq_aux (vals keys : List Nat) (acc pk : Nat)
    (h : ∀ k, keys.head? = some k → pk ≠ k) :
    inclusiveSegScan vals keys = segScanAux acc pk vals keys := by
  cases vals with
  | nil => cases keys <;> rfl
  | cons v vs =>
    cases keys with
    | nil => rfl
    | cons k ks =>
      have hk : k ≠ pk := fun he => h k rfl he.symm
      show v :: segScanAux v k vs ks =
        (if k = pk then acc + v else v) ::
          segScanAux (if k = pk then acc + v else v) k vs ks
      rw [if_neg hk]

theorem segSpec_mem (sl : List Nat) : ∀ (b x : Nat), x ∈ segSpec b sl →
    x < b + sl.length := by
  induction sl with
  | nil => intro b x hx; exact absurd hx (List.not_mem_nil x)
  | cons s ss ih =>
    intro b x hx
    rw [show segSpec b (s :: ss) = List.replicate s b ++ segSpec (b + 1) ss
      from rfl, List.mem_append] at hx
    rcases hx with hx | hx
    · have := (List.eq_of_mem_replicate hx)
      subst this
      simp
    · have := ih (b + 1) x hx
      simp at this ⊢
      omega

/-- The `segments` buffer is the flattening of one constant block per
A-entry: block n is `segment_lengths[n]` copies of n. -/
theorem segments_eq (A B : CooMatrix) (hwf : A.wf) :
    segments A B = segSpec 0 (segment_lengths A B) := by
  have hlen : (segment_lengths A B).length = A.num_entries := by
    simp [segment_lengths, CooMatrix.num_entries, hwf.1]
  by_cases hne : A.num_entries = 0
  · have hsl : segment_lengths A B = [] :=
      List.eq_nil_of_length_eq_zero (by omega)
    have hT : coo_num_nonzeros A B = 0 := by
      unfold coo_num_nonzeros
      rw [output_ptr_getD A B hwf A.num_entries (Nat.le_refl _), hsl]
      simp
    unfold segments
    rw [hT, hsl, hne]
    rfl
  · unfold segments
    rw [output_ptr_eq A B hwf hne, coo_num_nonzeros_eq A B hwf hne, ← hlen]
    rw [show scatterIf (List.range' 0 (segment_lengths A B).length)
          (exclusiveScan (segment_lengths A B) 0 ++ [(segment_lengths A B).sum])
          (segment_lengths A B)
          (List.replicate (segment_lengths A B).sum 0) =
        markedP (List.range' 0 (segment_lengths A B).length)
          (segment_lengths A B) 0
      from scatterIf_marked _ _ [] _ 0 (by simp)]
    exact scanMax_marked _ 0 0 (Nat.le_refl 0)

/-- The `gather_locations` buffer is the flattening of one counting block
per A-entry: block n counts up from `B_row_offsets[A.column_indices[n]]`
for `segment_lengths[n]` positions. -/
theorem gather_locations_eq (A B : CooMatrix) (hwf : A.wf) :
    gather_locations A B = gSpec (gather_temp A B) (segment_lengths A B) := by
  have hlen : (segment_lengths A B).length = A.num_entries := by
    simp [segment_lengths, CooMatrix.num_entries, hwf.1]
  have hts : (gather_temp A B).length = (segment_lengths A B).length := by
    simp [gather_temp, segment_lengths]
  by_cases hne : A.num_entries = 0
  · have hsl : segment_lengths A B = [] :=
      List.eq_nil_of_length_eq_zero (by omega)
    have htsn : gather_temp A B = [] :=
      List.eq_nil_of_length_eq_zero (by rw [hts, hsl]; rfl)
    have hT : coo_num_nonzeros A B = 0 := by
      unfold coo_num_nonzeros
      rw [output_ptr_getD A B hwf A.num_entries (Nat.le_refl _), hsl]
      simp
    unfold gather_locations
    rw [hT, hsl, htsn]
    rfl
  · unfold gather_locations
    rw [segments_eq A B hwf]
    rw [output_ptr_eq A B hwf hne, coo_num_nonzeros_eq A B hwf hne]
    rw [show scatterIf (gather_temp A B)
          (exclusiveScan (segment_lengths A B) 0 ++ [(segment_lengths A B).sum])
          (segment_lengths A B)
          (List.replicate (segment_lengths A B).sum 1) =
        markedP (gather_temp A B) (segment_lengths A B) 1
      from scatterIf_marked _ _ [] _ 1 hts]
    have hhead : ∀ k, (segSpec 0 (segment_lengths A B)).head? = some k →
        (segment_lengths A B).length ≠ k := by
      intro k hk
      have hmem : k ∈ segSpec 0 (segment_lengths A B) := by
        cases hseg : segSpec 0 (segment_lengths A B) with
        | nil => rw [hseg] at hk; simp at hk
        | cons a l =>
          rw [hseg] at hk
          simp at hk
          rw [hk]
          exact List.mem_cons_self k l
      have := segSpec_mem _ 0 k hmem
      omega
    rw [inclusiveSegScan_eq_aux _ _ 0 (segment_lengths A B).length hhead]
    exact segScanAux_marked _ _ 0 _ 0 hts (fun i hi => by omega)

/-! ## From blocks to the sequential expansion -/

/-- Flattening of constant blocks: `x_n` repeated `sl_n` times. -/
def repSpec {α : Type} : List α → List Nat → List α
  | x :: xs, s :: ss => List.replicate s x ++ repSpec xs ss
  | _, _ => []

theorem segSpec_map {α : Type} (sl : List Nat) : ∀ (b : Nat) (f : Nat → α),
    (segSpec b sl).map f = repSpec ((List.range' b sl.length).map f) sl := by
  induction sl with
  | nil => intro b f; rfl
  | cons s ss ih =>
    intro b f
    rw [List.length_cons, List.range'_succ, List.map_cons]
    show (List.replicate s b ++ segSpec (b + 1) ss).map f = _
    rw [List.map_append, List.map_replicate, ih (b + 1) f]
    rfl

theorem range'_map_getD_shift {α : Type} (n : Nat) :
    ∀ (s : Nat) (x : α) (L : List α) (d : α),
    (List.range' (s + 1) n).map (fun g => (x :: L).getD g d) =
      (List.range' s n).map (fun g => L.getD g d) := by
  induction n with
  | zero => intro s x L d; rfl
  | succ n ih =>
    intro s x L d
    rw [List.range'_succ, List.range'_succ, List.map_cons, List.map_cons]
    rw [ih (s + 1) x L d]
    simp [List.getD_cons_succ]

theorem prefix_map_getD {α : Type} (mid : List α) (d : α) :
    ∀ post : List α,
    (List.range' 0 mid.length).map (fun g => (mid ++ post).getD g d) = mid := by
  induction mid with
  | nil => intro post; rfl
  | cons x xs ih =>
    intro post
    rw [List.length_cons, List.range'_succ, List.map_cons]
    rw [show ((x :: xs) ++ post : List α) = x :: (xs ++ post) from rfl]
    rw [range'_map_getD_shift xs.length 0 x (xs ++ post) d]
    rw [ih post]
    simp [List.getD_cons_zero]

theorem slice_map_getD {α : Type} (mid : List α) (d : α) :
    ∀ (pre post : List α),
    (List.range' pre.length mid.length).map
        (fun g => (pre ++ (mid ++ post)).getD g d) = mid := by
  intro pre
  induction pre with
  | nil => intro post; exact prefix_map_getD mid d post
  | cons x pre ih =>
    intro post
    rw [List.length_cons]
    rw [show ((x :: pre) ++ (mid ++ post) : List α) = x :: (pre ++ (mid ++ post))
      from rfl]
    rw [range'_map_getD_shift mid.length pre.length x (pre ++ (mid ++ post)) d]
    exact ih post

theorem full_map_getD {α : Type} (L : List α) (d : α) :
    (List.range' 0 L.length).map (fun g => L.getD g d) = L := by
  have h := prefix_map_getD L d []
  simpa using h

/-- The sequential nested-loop expansion (strategy (a) of the spec): for
each A-entry (i, j, a) in order, walk B's row slice for j and emit the
triplet (i, B.column_indices[g], a * B.values[g]) for every position g in
`[B_row_offsets[j], B_row_offsets[j] + B_row_lengths[j])`. -/
def expand_sequential (B : CooMatrix) : List (Nat × Nat × Int) → List (Nat × Nat × Int)
  | [] => []
  | (i, j, a) :: rest =>
      (List.range' ((B_row_offsets B).getD j 0) ((B_row_lengths B).getD j 0)).map
          (fun g => (i, B.column_indices.getD g 0, a * B.values.getD g 0)) ++
        expand_sequential B rest

theorem zip_block (s : Nat) : ∀ (t r : Nat) (v : Int) (fJ : Nat → Nat)
    (fV : Nat → Int),
    (List.replicate s r).zip
        (((List.range' t s).map fJ).zip
          (List.zipWith (· * ·) (List.replicate s v) ((List.range' t s).map fV))) =
      (List.range' t s).map (fun g => (r, fJ g, v * fV g)) := by
  induction s with
  | zero => intro t r v fJ fV; rfl
  | succ s ih =>
    intro t r v fJ fV
    rw [List.range'_succ, List.replicate_succ, List.replicate_succ,
      List.map_cons, List.map_cons, List.zipWith_cons_cons,
      List.zip_cons_cons, List.zip_cons_cons]
    rw [ih (t + 1) r v fJ fV]
    rfl

theorem inter_blocks (B : CooMatrix) : ∀ (rows cols : List Nat) (vals : List Int),
    cols.length = rows.length → vals.length = rows.length →
    (repSpec rows (cols.map (fun j => (B_row_lengths B).getD j 0))).zip
        (((gSpec (cols.map (fun j => (B_row_offsets B).getD j 0))
              (cols.map (fun j => (B_row_lengths B).getD j 0))).map
            (fun g => B.column_indices.getD g 0)).zip
          (List.zipWith (· * ·)
            (repSpec vals (cols.map (fun j => (B_row_lengths B).getD j 0)))
            ((gSpec (cols.map (fun j => (B_row_offsets B).getD j 0))
                (cols.map (fun j => (B_row_lengths B).getD j 0))).map
              (fun g => B.values.getD g 0)))) =
      expand_sequential B (rows.zip (cols.zip vals)) := by
  intro rows
  induction rows with
  | nil => intro cols vals _ _; rfl
  | cons r rows ih =>
    intro cols vals hc hv
    cases cols with
    | nil => simp at hc
    | cons c cols =>
      cases vals with
      | nil => simp at hv
      | cons v vals =>
        have hc' : cols.length = rows.length := by simpa using hc
        have hv' : vals.length = rows.length := by simpa using hv
        rw [List.map_cons, List.map_cons]
        rw [show repSpec (r :: rows)
              ((B_row_lengths B).getD c 0 ::
                cols.map (fun j => (B_row_lengths B).getD j 0)) =
            List.replicate ((B_row_lengths B).getD c 0) r ++
              repSpec rows (cols.map (fun j => (B_row_lengths B).getD j 0))
          from rfl]
        rw [show repSpec (v :: vals)
              ((B_row_lengths B).getD c 0 ::
                cols.map (fun j => (B_row_lengths B).getD j 0)) =
            List.replicate ((B_row_lengths B).getD c 0) v ++
              repSpec vals (cols.map (fun j => (B_row_lengths B).getD j 0))
          from rfl]
        rw [show gSpec
              ((B_row_offsets B).getD c 0 ::
                cols.map (fun j => (B_row_offsets B).getD j 0))
              ((B_row_lengths B).getD c 0 ::
                cols.map (fun j => (B_row_lengths B).getD j 0)) =
            List.range' ((B_row_offsets B).getD c 0) ((B_row_lengths B).getD c 0) ++
              gSpec (cols.map (fun j => (B_row_offsets B).getD j 0))
                (cols.map (fun j => (B_row_lengths B).getD j 0))
          from rfl]
        rw [List.map_append, List.map_append]
        rw [List.zipWith_append _ _ _ _ _ (by simp)]
        rw [List.zip_append (by simp)]
        rw [List.zip_append (by simp)]
        rw [zip_block, ih cols vals hc' hv']
        rfl

/-- The data-parallel expansion produces the sequential nested-loop
expansion exactly (even as lists, hence as multisets). -/
theorem intermediate_eq_expand (A B : CooMatrix) (hwf : A.wf) :
    intermediate A B = expand_sequential B A.triples := by
  have hlen : (segment_lengths A B).length = A.row_indices.length := by
    simp [segment_lengths, hwf.1]
  unfold intermediate interI interJ interV
  rw [segments_eq A B hwf, gather_locations_eq A B hwf]
  rw [segSpec_map (segment_lengths A B) 0 (fun n => A.row_indices.getD n 0)]
  rw [segSpec_map (segment_lengths A B) 0 (fun n => A.values.getD n 0)]
  rw [hlen]
  rw [full_map_getD A.row_indices (0 : Nat)]
  rw [show A.row_indices.length = A.values.length from hwf.2.symm]
  rw [full_map_getD A.values (0 : Int)]
  exact inter_blocks B A.row_indices A.column_indices A.values hwf.1 hwf.2

/-- C3: the data-parallel expansion (scatter of entry indices at
`output_ptr` positions, inclusive maximum scan, scatter of
`B_row_offsets[A.column_indices[n]]` followed by an inclusive segmented
plus-scan over a ones-filled buffer, then the three gathers) yields exactly
the multiset of intermediate triplets of the sequential nested-loop
expansion: one triplet per (A-entry, matching-B-entry) pair. -/
theorem expansion_refines_sequential (A B : CooMatrix) (hwf : A.wf) :
    intermediate A B = expand_sequential B A.triples ∧
      (intermediate A B : Multiset (Nat × Nat × Int)) =
        (expand_sequential B A.triples : Multiset (Nat × Nat × Int)) :=
  ⟨intermediate_eq_expand A B hwf,
    congrArg _ (intermediate_eq_expand A B hwf)⟩

theorem expansion_refines_sequential_witness :
    Aex.wf ∧
      (intermediate Aex Bex = expand_sequential Bex Aex.triples ∧
        (intermediate Aex Bex : Multiset (Nat × Nat × Int)) =
          (expand_sequential Bex Aex.triples : Multiset (Nat × Nat × Int))) :=
  ⟨⟨rfl, rfl⟩, expansion_refines_sequential Aex Bex ⟨rfl, rfl⟩⟩

/-! ## Order of the output stream: sort passes and duplicate compression -/

/-- Non-strict lexicographic order on (row, column) keys. -/
def lexLe (a b : Nat × Nat × Int) : Prop :=
  a.1 < b.1 ∨ (a.1 = b.1 ∧ a.2.1 ≤ b.2.1)

/-- Strict lexicographic order on (row, column) keys. -/
def lexLT (a b : Nat × Nat × Int) : Prop :=
  a.1 < b.1 ∨ (a.1 = b.1 ∧ a.2.1 < b.2.1)

/-- Order by column key alone. -/
def colLe (a b : Nat × Nat × Int) : Prop := a.2.1 ≤ b.2.1

theorem lexLe_trans {a b c : Nat × Nat × Int} (h1 : lexLe a b) (h2 : lexLe b c) :
    lexLe a c := by
  unfold lexLe at *
  omega

theorem lexLT_of_lexLe_ne {a b : Nat × Nat × Int} (h : lexLe a b)
    (hne : ¬(a.1 = b.1 ∧ a.2.1 = b.2.1)) : lexLT a b := by
  unfold lexLe at h
  unfold lexLT
  omega

theorem lexLT_of_lexLT_of_lexLe {a b c : Nat × Nat × Int} (h1 : lexLT a b)
    (h2 : lexLe b c) : lexLT a c := by
  unfold lexLT at *
  unfold lexLe at h2
  omega

theorem lexLT_congr_keys {a b c : Nat × Nat × Int} (h : lexLT a b)
    (h1 : c.1 = b.1) (h2 : c.2.1 = b.2.1) : lexLT a c := by
  unfold lexLT at *
  omega

theorem lexLe_congr_left {a a' z : Nat × Nat × Int} (h1 : a'.1 = a.1)
    (h2 : a'.2.1 = a.2.1) (h : lexLe a z) : lexLe a' z := by
  unfold lexLe at *
  omega

theorem insertByCol_perm (x : Nat × Nat × Int) (l : List (Nat × Nat × Int)) :
    (insertByCol x l).Perm (x :: l) := by
  induction l with
  | nil => exact List.Perm.refl _
  | cons y ys ih =>
    unfold insertByCol
    split
    · exact (ih.cons y).trans (List.Perm.swap x y ys)
    · exact List.Perm.refl _

theorem sortByJ_perm (l : List (Nat × Nat × Int)) : (sortByJ l).Perm l := by
  induction l with
  | nil => exact List.Perm.refl _
  | cons x xs ih =>
    show (insertByCol x (sortByJ xs)).Perm (x :: xs)
    exact (insertByCol_perm x (sortByJ xs)).trans (ih.cons x)

theorem insertByRow_perm (x : Nat × Nat × Int) (l : List (Nat × Nat × Int)) :
    (insertByRow x l).Perm (x :: l) := by
  induction l with
  | nil => exact List.Perm.refl _
  | cons y ys ih =>
    unfold insertByRow
    split
    · exact (ih.cons y).trans (List.Perm.swap x y ys)
    · exact List.Perm.refl _

theorem sortByI_perm (l : List (Nat × Nat × Int)) : (sortByI l).Perm l := by
  induction l with
  | nil => exact List.Perm.refl _
  | cons x xs ih =>
    show (insertByRow x (sortByI xs)).Perm (x :: xs)
    exact (insertByRow_perm x (sortByI xs)).trans (ih.cons x)

theorem pairwise_insertByCol (x : Nat × Nat × Int) (l : List (Nat × Nat × Int))
    (h : l.Pairwise colLe) : (insertByCol x l).Pairwise colLe := by
  induction l with
  | nil => simp [insertByCol]
  | cons y ys ih =>
    rw [List.pairwise_cons] at h
    unfold insertByCol
    split
    · rw [List.pairwise_cons]
      refine ⟨?_, ih h.2⟩
      intro z hz
      rcases List.mem_cons.mp ((insertByCol_perm x ys).mem_iff.mp hz) with hz' | hz'
      · rw [hz']
        exact Nat.le_of_lt (by assumption)
      · exact h.1 z hz'
    · rw [List.pairwise_cons]
      refine ⟨?_, List.pairwise_cons.mpr h⟩
      intro z hz
      rcases List.mem_cons.mp hz with hz' | hz'
      · rw [hz']
        show x.2.1 ≤ y.2.1
        omega
      · exact Nat.le_trans (show x.2.1 ≤ y.2.1 by omega) (h.1 z hz')

theorem sortByJ_pairwise (l : List (Nat × Nat × Int)) :
    (sortByJ l).Pairwise colLe := by
  induction l with
  | nil => exact List.Pairwise.nil
  | cons x xs ih => exact pairwise_insertByCol x (sortByJ xs) ih

/-- Stability of the row pass: inserting an element that is column-least
among the elements sharing its row into a lexicographically sorted list
keeps the list lexicographically sorted. -/
theorem pairwise_insertByRow_lex (x : Nat × Nat × Int) (l : List (Nat × Nat × Int))
    (hl : l.Pairwise lexLe) (hx : ∀ y ∈ l, x.1 = y.1 → x.2.1 ≤ y.2.1) :
    (insertByRow x l).Pairwise lexLe := by
  induction l with
  | nil => simp [insertByRow]
  | cons y ys ih =>
    rw [List.pairwise_cons] at hl
    unfold insertByRow
    split
    · rw [List.pairwise_cons]
      refine ⟨?_, ih hl.2 (fun z hz hz1 => hx z (List.mem_cons_of_mem y hz) hz1)⟩
      intro z hz
      rcases List.mem_cons.mp ((insertByRow_perm x ys).mem_iff.mp hz) with hz' | hz'
      · rw [hz']
        exact Or.inl (by assumption)
      · exact hl.1 z hz'
    · have hxy : lexLe x y := by
        rename_i hnlt
        rcases Nat.lt_or_ge x.1 y.1 with h1 | h1
        · exact Or.inl h1
        · have he : x.1 = y.1 := by omega
          exact Or.inr ⟨he, hx y (List.mem_cons_self y ys) he⟩
      rw [List.pairwise_cons]
      refine ⟨?_, List.pairwise_cons.mpr hl⟩
      intro z hz
      rcases List.mem_cons.mp hz with hz' | hz'
      · rw [hz']; exact hxy
      · exact lexLe_trans hxy (hl.1 z hz')

theorem sortByI_pairwise_lex (l : List (Nat × Nat × Int))
    (h : l.Pairwise colLe) : (sortByI l).Pairwise lexLe := by
  induction l with
  | nil => exact List.Pairwise.nil
  | cons x xs ih =>
    rw [List.pairwise_cons] at h
    show (insertByRow x (sortByI xs)).Pairwise lexLe
    apply pairwise_insertByRow_lex x (sortByI xs) (ih h.2)
    intro y hy _
    exact h.1 y ((sortByI_perm xs).mem_iff.mp hy)

/-- Every key of the compressed stream comes from a key of the input
stream. -/
theorem ubkAux_keys (l : List (Nat × Nat × Int)) :
    ∀ cur z, z ∈ ubkAux cur l →
      ∃ w ∈ cur :: l, z.1 = w.1 ∧ z.2.1 = w.2.1 := by
  induction l with
  | nil =>
    intro cur z hz
    rw [show ubkAux cur [] = [cur] from rfl] at hz
    rcases List.mem_cons.mp hz with hz' | hz'
    · exact ⟨cur, List.mem_cons_self cur [], by rw [hz'], by rw [hz']⟩
    · exact absurd hz' (List.not_mem_nil z)
  | cons t ts ih =>
    intro cur z hz
    unfold ubkAux at hz
    split at hz
    · obtain ⟨w, hw, h1, h2⟩ := ih (cur.1, cur.2.1, cur.2.2 + t.2.2) z hz
      rcases List.mem_cons.mp hw with hw' | hw'
      · refine ⟨cur, List.mem_cons_self cur (t :: ts), ?_, ?_⟩
        · rw [h1, hw']
        · rw [h2, hw']
      · exact ⟨w, List.mem_cons_of_mem cur (List.mem_cons_of_mem t hw'), h1, h2⟩
    · rcases List.mem_cons.mp hz with hz' | hz'
      · exact ⟨cur, List.mem_cons_self cur (t :: ts), by rw [hz'], by rw [hz']⟩
      · obtain ⟨w, hw, h1, h2⟩ := ih t z hz'
        exact ⟨w, List.mem_cons_of_mem cur hw, h1, h2⟩

/-- Compressing a lexicographically sorted stream yields a strictly
ascending stream: adjacent equal keys merge, distinct keys stay in strictly
increasing order. -/
theorem ubkAux_pairwise (l : List (Nat × Nat × Int)) :
    ∀ cur, (cur :: l).Pairwise lexLe → (ubkAux cur l).Pairwise lexLT := by
  induction l with
  | nil => intro cur _; simp [ubkAux]
  | cons t ts ih =>
    intro cur h
    rw [List.pairwise_cons] at h
    have hts : (t :: ts).Pairwise lexLe := h.2
    rw [List.pairwise_cons] at hts
    unfold ubkAux
    split
    · rename_i hkey
      have hk1 : cur.1 = t.1 := by
        have := (Bool.and_eq_true _ _).mp hkey
        exact eq_of_beq this.1
      have hk2 : cur.2.1 = t.2.1 := by
        have := (Bool.and_eq_true _ _).mp hkey
        exact eq_of_beq this.2
      apply ih (cur.1, cur.2.1, cur.2.2 + t.2.2)
      rw [List.pairwise_cons]
      refine ⟨?_, hts.2⟩
      intro z hz
      exact lexLe_congr_left hk1 hk2 (hts.1 z hz)
    · rename_i hkey
      have hne : ¬(cur.1 = t.1 ∧ cur.2.1 = t.2.1) := by
        intro hcon
        apply hkey
        rw [Bool.and_eq_true]
        exact ⟨Nat.beq_eq_true_eq cur.1 t.1 ▸ hcon.1,
          Nat.beq_eq_true_eq cur.2.1 t.2.1 ▸ hcon.2⟩
      have hcurt : lexLT cur t :=
        lexLT_of_lexLe_ne (h.1 t (List.mem_cons_self t ts)) hne
      rw [List.pairwise_cons]
      refine ⟨?_, ih t h.2⟩
      intro z hz
      obtain ⟨w, hw, h1, h2⟩ := ubkAux_keys ts t z hz
      have hcw : lexLT cur w := by
        rcases List.mem_cons.mp hw with hw' | hw'
        · rw [hw']; exact hcurt
        · exact lexLT_of_lexLT_of_lexLe hcurt (hts.1 w hw')
      exact lexLT_congr_keys hcw h1 h2

theorem uniqueByKeyPlus_pairwise (l : List (Nat × Nat × Int))
    (h : l.Pairwise lexLe) : (uniqueByKeyPlus l).Pairwise lexLT := by
  cases l with
  | nil => exact List.Pairwise.nil
  | cons t ts => exact ubkAux_pairwise ts t h

/-- Rebuilding triples from the three projections of a triplet list. -/
theorem zip3_map (l : List (Nat × Nat × Int)) :
    (l.map (fun t => t.1)).zip
        ((l.map (fun t => t.2.1)).zip (l.map (fun t => t.2.2))) = l := by
  induction l with
  | nil => rfl
  | cons t ts ih => simp [ih]

/-- On the general path the result's triplet stream is the compressed,
two-pass-sorted intermediate stream. -/
theorem multiply_triples (A B : CooMatrix)
    (hne : ¬(A.num_entries = 0 ∨ B.num_entries = 0)) :
    (multiply A B).triples =
      uniqueByKeyPlus (sortByI (sortByJ (intermediate A B))) := by
  unfold multiply multiplyInto
  rw [if_neg hne]
  exact zip3_map _

/-- On the fast path the result's triplet stream is empty. -/
theorem multiply_triples_empty (A B : CooMatrix)
    (h : A.num_entries = 0 ∨ B.num_entries = 0) :
    (multiply A B).triples = [] := by
  unfold multiply multiplyInto
  rw [if_pos h]
  rfl

/-- C2: for valid inputs the output entries are in strictly ascending
lexicographic (row, column) order, so no two entries share a coordinate;
moreover the two-pass stable sort followed by `unique_by_key` with
addition produces a strictly ascending stream for every intermediate
triplet stream whatsoever. -/
theorem multiply_output_strictly_sorted (A B : CooMatrix)
    (hdim : A.num_cols = B.num_rows)
    (hsort : B.row_indices.Pairwise (· ≤ ·))
    (hAcol : ∀ j ∈ A.column_indices, j < A.num_cols)
    (hArow : ∀ i ∈ A.row_indices, i < A.num_rows)
    (hBcol : ∀ j ∈ B.column_indices, j < B.num_cols)
    (hBrow : ∀ r ∈ B.row_indices, r < B.num_rows) :
    (multiply A B).triples.Pairwise lexLT ∧
      ∀ l : List (Nat × Nat × Int),
        (uniqueByKeyPlus (sortByI (sortByJ l))).Pairwise lexLT := by
  have hall : ∀ l : List (Nat × Nat × Int),
      (uniqueByKeyPlus (sortByI (sortByJ l))).Pairwise lexLT := fun l =>
    uniqueByKeyPlus_pairwise _ (sortByI_pairwise_lex _ (sortByJ_pairwise l))
  refine ⟨?_, hall⟩
  by_cases hne : A.num_entries = 0 ∨ B.num_entries = 0
  · rw [multiply_triples_empty A B hne]
    exact List.Pairwise.nil
  · rw [multiply_triples A B hne]
    exact hall _

theorem multiply_output_strictly_sorted_witness :
    (Aex.num_cols = Bex.num_rows ∧ Bex.row_indices.Pairwise (· ≤ ·) ∧
      (∀ j ∈ Aex.column_indices, j < Aex.num_cols) ∧
      (∀ i ∈ Aex.row_indices, i < Aex.num_rows) ∧
      (∀ j ∈ Bex.column_indices, j < Bex.num_cols) ∧
      (∀ r ∈ Bex.row_indices, r < Bex.num_rows)) ∧
      (multiply Aex Bex).triples.Pairwise lexLT :=
  ⟨⟨rfl, by decide, by decide, by decide, by decide, by decide⟩,
    (multiply_output_strictly_sorted Aex Bex rfl (by decide) (by decide)
      (by decide) (by decide) (by decide)).1⟩

/-! ## Value sums per output coordinate -/

/-- The accumulated value a triplet stream carries at coordinate (i,j). -/
def entryL (l : List (Nat × Nat × Int)) (i j : Nat) : Int :=
  ((l.filter (fun t => t.1 == i && t.2.1 == j)).map (fun t => t.2.2)).sum

theorem entry_eq_entryL (m : CooMatrix) (i j : Nat) :
    m.entry i j = entryL m.triples i j := rfl

theorem entryL_cons (t : Nat × Nat × Int) (l : List (Nat × Nat × Int)) (i j : Nat) :
    entryL (t :: l) i j =
      (if t.1 == i && t.2.1 == j then t.2.2 else 0) + entryL l i j := by
  unfold entryL
  rw [List.filter_cons]
  split
  · rw [List.map_cons, List.sum_cons]
  · rw [Int.zero_add]

theorem entryL_append (l1 l2 : List (Nat × Nat × Int)) (i j : Nat) :
    entryL (l1 ++ l2) i j = entryL l1 i j + entryL l2 i j := by
  unfold entryL
  rw [List.filter_append, List.map_append, List.sum_append]

theorem entryL_perm {l l' : List (Nat × Nat × Int)} (h : l.Perm l') (i j : Nat) :
    entryL l i j = entryL l' i j :=
  ((h.filter _).map _).sum_eq

/-- Merging a run of equal keys preserves the value accumulated at every
coordinate. -/
theorem entryL_ubkAux (l : List (Nat × Nat × Int)) :
    ∀ (cur : Nat × Nat × Int) (i j : Nat),
    entryL (ubkAux cur l) i j = entryL (cur :: l) i j := by
  induction l with
  | nil => intro cur i j; rfl
  | cons t ts ih =>
    intro cur i j
    unfold ubkAux
    split
    · rename_i hkey
      have hk1 : cur.1 = t.1 := eq_of_beq ((Bool.and_eq_true _ _).mp hkey).1
      have hk2 : cur.2.1 = t.2.1 := eq_of_beq ((Bool.and_eq_true _ _).mp hkey).2
      rw [ih (cur.1, cur.2.1, cur.2.2 + t.2.2) i j]
      rw [entryL_cons, entryL_cons, entryL_cons]
      rw [show ((cur.1, cur.2.1, cur.2.2 + t.2.2) : Nat × Nat × Int).1 = cur.1
        from rfl]
      rw [show ((cur.1, cur.2.1, cur.2.2 + t.2.2) : Nat × Nat × Int).2.1 = cur.2.1
        from rfl]
      rw [show ((cur.1, cur.2.1, cur.2.2 + t.2.2) : Nat × Nat × Int).2.2 =
        cur.2.2 + t.2.2 from rfl]
      rw [hk1, hk2]
      split
      · ring
      · ring
    · rw [entryL_cons, ih t i j, entryL_cons, entryL_cons, entryL_cons t ts i j]

theorem entryL_uniqueByKeyPlus (l : List (Nat × Nat × Int)) (i j : Nat) :
    entryL (uniqueByKeyPlus l) i j = entryL l i j := by
  cases l with
  | nil => rfl
  | cons t ts => exact entryL_ubkAux ts t i j

/-- The sort and compression stages leave the per-coordinate value sums of
the intermediate stream unchanged. -/
theorem entryL_multiply (A B : CooMatrix)
    (hne : ¬(A.num_entries = 0 ∨ B.num_entries = 0)) (i j : Nat) :
    (multiply A B).entry i j = entryL (intermediate A B) i j := by
  rw [entry_eq_entryL, multiply_triples A B hne]
  rw [entryL_uniqueByKeyPlus]
  rw [entryL_perm ((sortByI_perm _).trans (sortByJ_perm _)) i j]

/-! ## Values of the row summary buffers -/

theorem getD_map_range (f : Nat → Nat) (n i d : Nat) (h : i < n) :
    ((List.range n).map f).getD i d = f i := by
  rw [List.getD_eq_getElem _ _ (by simpa using h)]
  simp

theorem B_row_offsets_getD (B : CooMatrix) (c : Nat) (hc : c ≤ B.num_rows) :
    (B_row_offsets B).getD c 0 =
      B.row_indices.countP (fun x => decide (x < c)) := by
  unfold B_row_offsets indicesToOffsets
  exact getD_map_range _ _ _ _ (by omega)

theorem countP_lt_succ (l : List Nat) (c : Nat) :
    l.countP (fun x => decide (x < c + 1)) =
      l.countP (fun x => decide (x < c)) + l.countP (fun x => x == c) := by
  induction l with
  | nil => rfl
  | cons a l ih =>
    rw [List.countP_cons, List.countP_cons, List.countP_cons, ih]
    have h1 : (decide (a < c + 1) : Bool) = (decide (a < c) || (a == c)) := by
      by_cases h : a < c
      · simp [h, show a < c + 1 by omega]
      · by_cases h' : a = c
        · simp [h', show c < c + 1 by omega]
        · simp [h, h', show ¬(a < c + 1) by omega]
    rw [h1]
    by_cases h : a < c
    · have h2 : (a == c) = false := by
        simp
        omega
      simp [h, h2]
      omega
    · by_cases h' : a = c
      · simp [h', show ¬(c < c) by omega]
        omega
      · have h2 : (a == c) = false := by simp [h']
        simp [h, h2]

theorem B_row_offsets_length (B : CooMatrix) :
    (B_row_offsets B).length = B.num_rows + 1 := by
  unfold B_row_offsets indicesToOffsets
  simp

theorem B_row_lengths_getD (B : CooMatrix) (c : Nat) (hc : c < B.num_rows) :
    (B_row_lengths B).getD c 0 = B.row_indices.countP (fun x => x == c) := by
  have hlen : (B_row_lengths B).length = B.num_rows := by
    unfold B_row_lengths
    rw [List.length_zipWith, List.length_drop, B_row_offsets_length]
    omega
  rw [List.getD_eq_getElem _ _ (by omega)]
  unfold B_row_lengths
  rw [List.getElem_zipWith]
  rw [List.getElem_drop _]
  rw [← List.getD_eq_getElem (B_row_offsets B) 0]
  rw [← List.getD_eq_getElem (B_row_offsets B) 0]
  have h1 : (B_row_offsets B).getD (1 + c) 0 =
      B.row_indices.countP (fun x => decide (x < c + 1)) := by
    rw [show 1 + c = c + 1 by omega]
    exact B_row_offsets_getD B (c + 1) (by omega)
  have h2 : (B_row_offsets B).getD c 0 =
      B.row_indices.countP (fun x => decide (x < c)) :=
    B_row_offsets_getD B c (by omega)
  rw [h1, h2, countP_lt_succ]
  omega

/-! ## Row-sorted decomposition of the right operand -/

/-- A stream sorted by row splits as (rows below c) ++ (rows equal c) ++
(rows above c). -/
theorem sorted_decomp (c : Nat) (l : List (Nat × Nat × Int))
    (h : l.Pairwise (fun a b => a.1 ≤ b.1)) :
    l = l.filter (fun t => decide (t.1 < c)) ++
        l.filter (fun t => t.1 == c) ++
        l.filter (fun t => decide (c < t.1)) := by
  induction l with
  | nil => rfl
  | cons t ts ih =>
    rw [List.pairwise_cons] at h
    have hts := ih h.2
    rw [List.filter_cons, List.filter_cons, List.filter_cons]
    rcases Nat.lt_trichotomy t.1 c with hlt | heq | hgt
    · rw [if_pos (by simpa using hlt)]
      rw [if_neg (by simp; omega)]
      rw [if_neg (by simp; omega)]
      simp only [List.cons_append]
      rw [← hts]
    · have hF1 : ts.filter (fun t' => decide (t'.1 < c)) = [] := by
        rw [List.filter_eq_nil_iff]
        intro z hz
        have := h.1 z hz
        simp
        omega
      rw [if_neg (by simp; omega)]
      rw [if_pos (by simpa using heq)]
      rw [if_neg (by simp; omega)]
      rw [hF1] at hts
      rw [List.nil_append] at hts
      rw [hF1, List.nil_append]
      simp only [List.cons_append]
      rw [← hts]
    · have hF1 : ts.filter (fun t' => decide (t'.1 < c)) = [] := by
        rw [List.filter_eq_nil_iff]
        intro z hz
        have := h.1 z hz
        simp
        omega
      have hF2 : ts.filter (fun t' => t'.1 == c) = [] := by
        rw [List.filter_eq_nil_iff]
        intro z hz
        have := h.1 z hz
        simp
        omega
      rw [if_neg (by simp; omega)]
      rw [if_neg (by simp; omega)]
      rw [if_pos (by simpa using hgt)]
      rw [hF1, hF2] at hts
      rw [List.nil_append, List.nil_append] at hts
      rw [hF1, hF2, List.nil_append, List.nil_append]
      rw [← hts]

theorem triples_length (m : CooMatrix) (hwf : m.wf) :
    m.triples.length = m.num_entries := by
  unfold CooMatrix.triples CooMatrix.num_entries
  rw [List.length_zip, List.length_zip]
  rw [hwf.1, hwf.2]
  omega

theorem triples_map_fst (m : CooMatrix) (hwf : m.wf) :
    m.triples.map (fun t => t.1) = m.row_indices := by
  unfold CooMatrix.triples
  exact List.map_fst_zip _ _ (by rw [List.length_zip, hwf.1, hwf.2]; omega)

theorem triples_pairwise_row (m : CooMatrix) (hwf : m.wf)
    (hsort : m.row_indices.Pairwise (· ≤ ·)) :
    m.triples.Pairwise (fun a b => a.1 ≤ b.1) := by
  rw [← triples_map_fst m hwf] at hsort
  exact List.pairwise_map.mp hsort

theorem filter_fst_length (m : CooMatrix) (hwf : m.wf) (p : Nat → Bool) :
    (m.triples.filter (fun t => p t.1)).length = m.row_indices.countP p := by
  rw [← List.countP_eq_length_filter]
  rw [← triples_map_fst m hwf]
  rw [List.countP_map]
  rfl

theorem triples_getD (m : CooMatrix) (g : Nat) (hg : g < m.triples.length) :
    m.triples.getD g (0, 0, (0 : Int)) =
      (m.row_indices.getD g 0, m.column_indices.getD g 0, m.values.getD g 0) := by
  have hg' := hg
  unfold CooMatrix.triples at hg'
  rw [List.length_zip, List.length_zip] at hg'
  rw [List.getD_eq_getElem _ _ hg]
  unfold CooMatrix.triples
  rw [List.getElem_zip, List.getElem_zip]
  rw [List.getD_eq_getElem _ _ (by omega), List.getD_eq_getElem _ _ (by omega),
    List.getD_eq_getElem _ _ (by omega)]

/-- The row slice `[offsets[c], offsets[c] + row_length[c])` of a row-sorted
right operand reads exactly the entries of row c, in order. -/
theorem B_slice (B : CooMatrix) (hwf : B.wf)
    (hsort : B.row_indices.Pairwise (· ≤ ·)) (c : Nat) (hc : c < B.num_rows) :
    (List.range' ((B_row_offsets B).getD c 0) ((B_row_lengths B).getD c 0)).map
        (fun g => B.triples.getD g (0, 0, (0 : Int))) =
      B.triples.filter (fun t => t.1 == c) := by
  have hdec := sorted_decomp c B.triples (triples_pairwise_row B hwf hsort)
  rw [List.append_assoc] at hdec
  have ho : (B_row_offsets B).getD c 0 =
      (B.triples.filter (fun t => decide (t.1 < c))).length := by
    rw [B_row_offsets_getD B c (Nat.le_of_lt hc)]
    exact (filter_fst_length B hwf (fun x => decide (x < c))).symm
  have hl : (B_row_lengths B).getD c 0 =
      (B.triples.filter (fun t => t.1 == c)).length := by
    rw [B_row_lengths_getD B c hc]
    exact (filter_fst_length B hwf (fun x => x == c)).symm
  rw [ho, hl]
  have hs := slice_map_getD (B.triples.filter (fun t => t.1 == c))
    (0, 0, (0 : Int)) (B.triples.filter (fun t => decide (t.1 < c)))
    (B.triples.filter (fun t => decide (c < t.1)))
  rw [← hdec] at hs
  exact hs

theorem entryL_mapped (F : List (Nat × Nat × Int)) (r : Nat) (a : Int) (i j : Nat) :
    entryL (F.map (fun t => (r, t.2.1, a * t.2.2))) i j =
      if r = i then a * ((F.filter (fun t => t.2.1 == j)).map (fun t => t.2.2)).sum
      else 0 := by
  induction F with
  | nil =>
    unfold entryL
    split <;> simp
  | cons t ts ih =>
    rw [List.map_cons, entryL_cons, ih, List.filter_cons]
    by_cases hri : r = i
    · by_cases htj : t.2.1 = j
      · simp [hri, htj]
        ring
      · simp [hri, htj]
    · simp [hri]

theorem entry_filter (B : CooMatrix) (c j : Nat) :
    B.entry c j =
      (((B.triples.filter (fun t => t.1 == c)).filter
          (fun t => t.2.1 == j)).map (fun t => t.2.2)).sum := by
  unfold CooMatrix.entry
  rw [List.filter_filter]
  congr 1
  congr 1
  apply List.filter_congr
  intro x _
  exact Bool.and_comm _ _

/-- Value contributed at (i,j) by the expansion block of one A-entry
(r, c, a): a times B's (c,j) coefficient when r = i, nothing otherwise. -/
theorem entryL_slice_block (B : CooMatrix) (hwf : B.wf)
    (hsort : B.row_indices.Pairwise (· ≤ ·)) (c : Nat) (hc : c < B.num_rows)
    (r : Nat) (a : Int) (i j : Nat) :
    entryL ((List.range' ((B_row_offsets B).getD c 0)
        ((B_row_lengths B).getD c 0)).map
        (fun g => (r, B.column_indices.getD g 0, a * B.values.getD g 0))) i j =
      if r = i then a * B.entry c j else 0 := by
  have hob : (B_row_offsets B).getD c 0 + (B_row_lengths B).getD c 0 ≤
      B.triples.length := by
    rw [B_row_offsets_getD B c (Nat.le_of_lt hc), B_row_lengths_getD B c hc]
    rw [triples_length B hwf, ← countP_lt_succ]
    exact List.countP_le_length _
  have hcong : ∀ g ∈ List.range' ((B_row_offsets B).getD c 0)
      ((B_row_lengths B).getD c 0),
      ((r, B.column_indices.getD g 0, a * B.values.getD g 0) : Nat × Nat × Int) =
        (fun t : Nat × Nat × Int => (r, t.2.1, a * t.2.2))
          (B.triples.getD g (0, 0, (0 : Int))) := by
    intro g hg
    rw [List.mem_range'_1] at hg
    rw [triples_getD B g (by omega)]
  rw [List.map_congr_left hcong]
  rw [show (List.range' ((B_row_offsets B).getD c 0)
        ((B_row_lengths B).getD c 0)).map
        (fun g => (fun t : Nat × Nat × Int => (r, t.2.1, a * t.2.2))
          (B.triples.getD g (0, 0, (0 : Int)))) =
      ((List.range' ((B_row_offsets B).getD c 0)
        ((B_row_lengths B).getD c 0)).map
        (fun g => B.triples.getD g (0, 0, (0 : Int)))).map
        (fun t : Nat × Nat × Int => (r, t.2.1, a * t.2.2)) by
    rw [List.map_map]
    rfl]
  rw [B_slice B hwf hsort c hc, entryL_mapped, entry_filter B c j]

/-- Value accumulated at (i,j) by the whole sequential expansion. -/
theorem entryL_expand (B : CooMatrix) (hwf : B.wf)
    (hsort : B.row_indices.Pairwise (· ≤ ·)) :
    ∀ ts : List (Nat × Nat × Int), (∀ t ∈ ts, t.2.1 < B.num_rows) →
    ∀ i j, entryL (expand_sequential B ts) i j =
      (ts.map (fun t => if t.1 = i then t.2.2 * B.entry t.2.1 j else 0)).sum := by
  intro ts
  induction ts with
  | nil => intro _ i j; rfl
  | cons t ts ih =>
    intro hb i j
    obtain ⟨r, c, a⟩ := t
    rw [show expand_sequential B ((r, c, a) :: ts) =
        (List.range' ((B_row_offsets B).getD c 0)
          ((B_row_lengths B).getD c 0)).map
          (fun g => (r, B.column_indices.getD g 0, a * B.values.getD g 0)) ++
        expand_sequential B ts from rfl]
    rw [entryL_append]
    rw [entryL_slice_block B hwf hsort c
      (hb (r, c, a) (List.mem_cons_self _ _)) r a i j]
    rw [List.map_cons, List.sum_cons]
    rw [ih (fun z hz => hb z (List.mem_cons_of_mem _ hz)) i j]

/-- Exchanging the per-entry sum for the dense double sum over columns. -/
theorem list_dense_swap (B : CooMatrix) (nc i j : Nat) :
    ∀ ts : List (Nat × Nat × Int), (∀ t ∈ ts, t.2.1 < nc) →
    (ts.map (fun t => if t.1 = i then t.2.2 * B.entry t.2.1 j else 0)).sum =
      ∑ k ∈ Finset.range nc, entryL ts i k * B.entry k j := by
  intro ts
  induction ts with
  | nil =>
    intro _
    simp [entryL]
  | cons t ts ih =>
    intro hb
    rw [List.map_cons, List.sum_cons, ih (fun z hz => hb z (List.mem_cons_of_mem _ hz))]
    rw [show (∑ k ∈ Finset.range nc, entryL (t :: ts) i k * B.entry k j) =
        ∑ k ∈ Finset.range nc,
          ((if t.1 == i && t.2.1 == k then t.2.2 else 0) * B.entry k j +
            entryL ts i k * B.entry k j) from
      Finset.sum_congr rfl (fun k _ => by rw [entryL_cons, add_mul])]
    rw [Finset.sum_add_distrib]
    congr 1
    by_cases hti : t.1 = i
    · rw [if_pos hti]
      have hmem : t.2.1 ∈ Finset.range nc :=
        Finset.mem_range.mpr (hb t (List.mem_cons_self _ _))
    
      have hzero : ∀ b ∈ Finset.range nc, b ≠ t.2.1 →
          (if t.1 == i && t.2.1 == b then t.2.2 else 0) * B.entry b j = 0 := by
        intro b _ hbne
        have hf : (t.2.1 == b) = false := by
          simp
          omega
        simp [hf]
      rw [Finset.sum_eq_single_of_mem t.2.1 hmem hzero]
      simp [hti]
    · rw [if_neg hti]
      have hf : (t.1 == i) = false := by simp [hti]
      rw [Finset.sum_eq_zero (fun k _ => by simp [hf])]

/-- C1: for exact (integer) values, every coefficient of the product
equals the dense reference sum: result(i,j) = sum over k of
A(i,k) * B(k,j). -/
theorem spgemm_matches_dense_reference (A B : CooMatrix) (hwfA : A.wf)
    (hwfB : B.wf) (hdim : A.num_cols = B.num_rows)
    (hsort : B.row_indices.Pairwise (· ≤ ·))
    (hAcol : ∀ c ∈ A.column_indices, c < A.num_cols) :
    ∀ i j, (multiply A B).entry i j =
      ∑ k ∈ Finset.range A.num_cols, A.entry i k * B.entry k j := by
  intro i j
  by_cases hne : A.num_entries = 0 ∨ B.num_entries = 0
  · rw [entry_eq_entryL, multiply_triples_empty A B hne]
    rw [show entryL [] i j = 0 from rfl]
    symm
    apply Finset.sum_eq_zero
    intro k _
    rcases hne with h | h
    · have hrow : A.row_indices = [] := List.eq_nil_of_length_eq_zero h
      have hz : A.entry i k = 0 := by
        unfold CooMatrix.entry CooMatrix.triples
        rw [hrow]
        rfl
      rw [hz, Int.zero_mul]
    · have hrow : B.row_indices = [] := List.eq_nil_of_length_eq_zero h
      have hz : B.entry k j = 0 := by
        unfold CooMatrix.entry CooMatrix.triples
        rw [hrow]
        rfl
      rw [hz, Int.mul_zero]
  · have hbound : ∀ t ∈ A.triples, t.2.1 < B.num_rows := by
      intro t ht
      have h2 := (List.of_mem_zip ht).2
      have h3 := (List.of_mem_zip h2).1
      rw [← hdim]
      exact hAcol _ h3
    have hboundA : ∀ t ∈ A.triples, t.2.1 < A.num_cols := by
      intro t ht
      rw [hdim]
      exact hbound t ht
    rw [entryL_multiply A B hne i j, intermediate_eq_expand A B hwfA]
    rw [entryL_expand B hwfB hsort A.triples hbound i j]
    rw [list_dense_swap B A.num_cols i j A.triples hboundA]
    simp only [← entry_eq_entryL]

theorem spgemm_matches_dense_reference_witness :
    (Aex.wf ∧ Bex.wf ∧ Aex.num_cols = Bex.num_rows ∧
      Bex.row_indices.Pairwise (· ≤ ·) ∧
      (∀ c ∈ Aex.column_indices, c < Aex.num_cols)) ∧
      (multiply Aex Bex).entry 1 0 =
        ∑ k ∈ Finset.range Aex.num_cols, Aex.entry 1 k * Bex.entry k 0 :=
  ⟨⟨⟨rfl, rfl⟩, ⟨rfl, rfl⟩, rfl, by decide, by decide⟩,
    spgemm_matches_dense_reference Aex Bex ⟨rfl, rfl⟩ ⟨rfl, rfl⟩ rfl
      (by decide) (by decide) 1 0⟩

/-! ## Multiplication by the identity -/

/-- The n x n COO identity: a diagonal of ones, sorted by row. -/
def idCoo (n : Nat) : CooMatrix :=
  ⟨n, n, List.range n, List.range n, List.replicate n 1⟩

/-- The canonical sort/merge normalization of a COO stream: the two-pass
stable sort into (row, column) order followed by run compression. -/
def canonical (l : List (Nat × Nat × Int)) : List (Nat × Nat × Int) :=
  uniqueByKeyPlus (sortByI (sortByJ l))

theorem countLt_range (n : Nat) : ∀ r : Nat, r ≤ n →
    (List.range n).countP (fun x => decide (x < r)) = r := by
  induction n with
  | zero =>
    intro r hr
    have : r = 0 := by omega
    subst this
    rfl
  | succ n ih =>
    intro r hr
    rw [List.range_succ, List.countP_append]
    rcases Nat.lt_or_ge r (n + 1) with h | h
    · rw [ih r (by omega)]
      have : (decide (n < r) : Bool) = false := by
        simp
        omega
      rw [List.countP_cons, this]
      rfl
    · have hr' : r = n + 1 := by omega
      subst hr'
      rw [List.countP_eq_length.mpr (fun a ha => by
        simp at ha ⊢
        omega)]
      have : (decide (n < n + 1) : Bool) = true := by simp
      rw [List.countP_cons, this]
      simp
  
theorem countEq_range (n : Nat) : ∀ c : Nat, c < n →
    (List.range n).countP (fun x => x == c) = 1 := by
  induction n with
  | zero => intro c hc; omega
  | succ n ih =>
    intro c hc
    rw [List.range_succ, List.countP_append]
    rcases Nat.lt_or_ge c n with h | h
    · rw [ih c h]
      have : (n == c) = false := by
        simp
        omega
      rw [List.countP_cons, this]
      rfl
    · have hc' : c = n := by omega
      subst hc'
      rw [List.countP_eq_zero.mpr (fun a ha => by
        simp at ha ⊢
        omega)]
      have : (c == c) = true := by simp
      rw [List.countP_cons, this]
      rfl

/-- Expanding against the identity reproduces the input stream. -/
theorem expand_idCoo (n : Nat) : ∀ ts : List (Nat × Nat × Int),
    (∀ t ∈ ts, t.2.1 < n) → expand_sequential (idCoo n) ts = ts := by
  intro ts
  induction ts with
  | nil => intro _; rfl
  | cons t ts ih =>
    intro hb
    obtain ⟨r, c, a⟩ := t
    have hc : c < n := hb (r, c, a) (List.mem_cons_self _ _)
    have hoff : (B_row_offsets (idCoo n)).getD c 0 = c := by
      rw [B_row_offsets_getD (idCoo n) c (Nat.le_of_lt hc)]
      exact countLt_range n c (Nat.le_of_lt hc)
    have hlen1 : (B_row_lengths (idCoo n)).getD c 0 = 1 := by
      rw [B_row_lengths_getD (idCoo n) c hc]
      exact countEq_range n c hc
    have hcol : (idCoo n).column_indices.getD c 0 = c := by
      rw [List.getD_eq_getElem _ _ (show c < (idCoo n).column_indices.length by
        simp [idCoo]
        omega)]
      simp [idCoo]
    have hval : (idCoo n).values.getD c 0 = 1 := by
      rw [List.getD_eq_getElem _ _ (show c < (idCoo n).values.length by
        simp [idCoo]
        omega)]
      simp [idCoo]
    rw [show expand_sequential (idCoo n) ((r, c, a) :: ts) =
        (List.range' ((B_row_offsets (idCoo n)).getD c 0)
          ((B_row_lengths (idCoo n)).getD c 0)).map
          (fun g => (r, (idCoo n).column_indices.getD g 0,
            a * (idCoo n).values.getD g 0)) ++
        expand_sequential (idCoo n) ts from rfl]
    rw [hoff, hlen1]
    rw [show List.range' c 1 = [c] from rfl, List.map_cons, List.map_nil]
    rw [hcol, hval, Int.mul_one]
    rw [List.cons_append, List.nil_append]
    rw [ih (fun z hz => hb z (List.mem_cons_of_mem _ hz))]

/-- C9: multiplying A by the correctly sized COO identity returns exactly
the canonical sort/merge normalization of A's entries: the same
coordinates with unchanged values. -/
theorem multiply_identity (A : CooMatrix) (hwf : A.wf)
    (hAcol : ∀ c ∈ A.column_indices, c < A.num_cols) :
    (multiply A (idCoo A.num_cols)).triples = canonical A.triples := by
  by_cases hA : A.num_entries = 0
  · rw [multiply_triples_empty _ _ (Or.inl hA)]
    have hrow : A.row_indices = [] := List.eq_nil_of_length_eq_zero hA
    have htr : A.triples = [] := by
      unfold CooMatrix.triples
      rw [hrow]
      rfl
    rw [htr]
    rfl
  · have hb : ∀ t ∈ A.triples, t.2.1 < A.num_cols := by
      intro t ht
      have h2 := (List.of_mem_zip ht).2
      exact hAcol _ (List.of_mem_zip h2).1
    have hn : (idCoo A.num_cols).num_entries ≠ 0 := by
      have hcols : A.column_indices ≠ [] := by
        intro hnil
        apply hA
        unfold CooMatrix.num_entries
        rw [← hwf.1, hnil]
        rfl
      obtain ⟨c, hcmem⟩ := List.exists_mem_of_ne_nil _ hcols
      have := hAcol c hcmem
      show (List.range A.num_cols).length ≠ 0
      simp
      omega
    rw [multiply_triples A (idCoo A.num_cols) (by push_neg; exact ⟨hA, hn⟩)]
    unfold canonical
    rw [intermediate_eq_expand A _ hwf, expand_idCoo A.num_cols A.triples hb]

theorem multiply_identity_witness :
    (Aex.wf ∧ (∀ c ∈ Aex.column_indices, c < Aex.num_cols)) ∧
      (multiply Aex (idCoo Aex.num_cols)).triples = canonical Aex.triples :=
  ⟨⟨⟨rfl, rfl⟩, by decide⟩,
    multiply_identity Aex ⟨rfl, rfl⟩ (by decide)⟩
